import Mathlib

/-!
Verification of the VA combined-disability-rating calculator of
`src/app.py` (`calculate_combined_rating`, `VA_COMPENSATION_RATES`, and the
derived compensation deltas computed in `validate_and_enrich_analysis`).

The Python source performs its running-total arithmetic on IEEE doubles and
rounds with Python's built-in `round` (nearest integer, ties to even).  The
shallow embedding models the arithmetic with exact rationals (`ℚ`) and
models `round` as nearest-integer with ties to even on the exact value; on
the small rating inputs exercised here the double computations either are
exact or do not straddle a rounding boundary, so the rational model agrees
with the float code at every concrete input used below.
-/

namespace VAClaims

/-- The floor of a rational, written so that the kernel can evaluate it
(`Int` division `/` is Euclidean division, which floors for a positive
denominator).  Equal to `⌊q⌋` by `Rat.floor_def`. -/
def ratFloor (q : ℚ) : ℤ :=
  q.num / q.den

theorem ratFloor_eq (q : ℚ) : ratFloor q = ⌊q⌋ :=
  Rat.floor_def.symm

/-- Python's `round` on an exact value: the nearest integer, with a tie
(fractional part exactly 1/2) going to the even integer. -/
def pyRound (q : ℚ) : ℤ :=
  if q - ratFloor q < 1/2 then ratFloor q
  else if 1/2 < q - ratFloor q then ratFloor q + 1
  else if ratFloor q % 2 = 0 then ratFloor q else ratFloor q + 1

/-- One iteration of the loop in `calculate_combined_rating`:
`combined = combined + (rating * (100 - combined) / 100)`. -/
def combineStep (total r : ℚ) : ℚ :=
  total + r * (100 - total) / 100

/-- The whole loop: fold `combineStep` over the remaining ratings, starting
from the largest one. -/
def combineFold (c : ℤ) (rest : List ℤ) : ℚ :=
  rest.foldl (fun t (r : ℤ) => combineStep t (r : ℚ)) (c : ℚ)

/-- Embedding of `calculate_combined_rating` from `src/app.py` (lines 1267-1293):
filter out ratings `<= 0`, sort descending, start from the largest value,
fold the VA combination step, round the total to the nearest multiple of 10
(Python `round`), and apply the `>= 95 → 100` ceiling and the
`min(rounded, 100)` clamp.  The two early `return 0` branches (empty input,
empty filtered list) are both the `[]` case of the match. -/
def calculate_combined_rating (individual_ratings : List ℤ) : ℤ :=
  match (individual_ratings.filter (fun r => decide (0 < r))).insertionSort (· ≥ ·) with
  | [] => 0
  | c :: rest =>
    let rounded : ℤ := pyRound (combineFold c rest / 10) * 10
    if 95 ≤ rounded then 100 else min rounded 100

/-- Embedding of `VA_COMPENSATION_RATES` from `src/app.py` (lines 499-503), as an
association list (the Python dict literal, in order). -/
def VA_COMPENSATION_RATES : List (ℤ × ℤ) :=
  [(0, 0), (10, 171), (20, 338), (30, 524), (40, 755), (50, 1075),
   (60, 1361), (70, 1716), (80, 1995), (90, 2241), (100, 3737)]

/-- Embedding of `VA_COMPENSATION_RATES.get(key, 0)`: dictionary lookup with default 0,
as used in `validate_and_enrich_analysis` (src/app.py lines 1246-1250). -/
def monthlyCompensation (combinedRating : ℤ) : ℤ :=
  (VA_COMPENSATION_RATES.lookup combinedRating).getD 0

/-- Embedding of `monthly_increase_potential` as computed in `validate_and_enrich_analysis`:
`VA_COMPENSATION_RATES.get(potential_rating, 0) - VA_COMPENSATION_RATES.get(current_rating, 0)`. -/
def monthly_increase_potential (current_rating potential_rating : ℤ) : ℤ :=
  monthlyCompensation potential_rating - monthlyCompensation current_rating

/-- Embedding of `annual_increase_potential` as computed in `validate_and_enrich_analysis`:
the same difference of table lookups, multiplied by 12. -/
def annual_increase_potential (current_rating potential_rating : ℤ) : ℤ :=
  (monthlyCompensation potential_rating - monthlyCompensation current_rating) * 12

/-! ### Analysis helpers (not part of the source; used to state and prove
properties of the fold). -/

/-- The "remaining efficiency" fraction of a list of ratings:
`∏ (1 - r/100)`. -/
def remFrac (L : List ℤ) : ℚ :=
  (L.map (fun (r : ℤ) => 1 - (r : ℚ) / 100)).prod

/-- Closed form of the exact running total of a list of ratings:
`100 * (1 - remFrac L)`.  Order-independent by construction. -/
def totalQ (L : List ℤ) : ℚ :=
  100 * (1 - remFrac L)

/-- The final ceiling/clamp applied to the rounded total. -/
def clampTo (rounded : ℤ) : ℤ :=
  if 95 ≤ rounded then 100 else min rounded 100

/-- Round an exact total to a multiple of ten and clamp, exactly as the
tail of `calculate_combined_rating` does. -/
def clampRound (t : ℚ) : ℤ :=
  clampTo (pyRound (t / 10) * 10)

/-! ### Basic facts about `pyRound` -/

theorem pyRound_eq (q : ℚ) :
    pyRound q =
      if q - ⌊q⌋ < 1/2 then ⌊q⌋
      else if 1/2 < q - ⌊q⌋ then ⌊q⌋ + 1
      else if ⌊q⌋ % 2 = 0 then ⌊q⌋ else ⌊q⌋ + 1 := by
  simp only [pyRound, ratFloor_eq]

theorem floor_le_pyRound (q : ℚ) : ⌊q⌋ ≤ pyRound q := by
  rw [pyRound_eq]
  split_ifs <;> omega

theorem pyRound_le_floor_add_one (q : ℚ) : pyRound q ≤ ⌊q⌋ + 1 := by
  rw [pyRound_eq]
  split_ifs <;> omega

theorem pyRound_mono {q₁ q₂ : ℚ} (h : q₁ ≤ q₂) : pyRound q₁ ≤ pyRound q₂ := by
  rcases lt_or_eq_of_le (Int.floor_mono h) with hf | hf
  · calc pyRound q₁ ≤ ⌊q₁⌋ + 1 := pyRound_le_floor_add_one q₁
      _ ≤ ⌊q₂⌋ := by omega
      _ ≤ pyRound q₂ := floor_le_pyRound q₂
  · have hc : ((⌊q₁⌋ : ℚ)) = ((⌊q₂⌋ : ℚ)) := by rw [hf]
    rw [pyRound_eq, pyRound_eq, ← hf]
    split_ifs with h1 h2 h3 h4 h5 h6 h7 h8 <;>
      first
        | omega
        | (exfalso; rw [hc] at h1; linarith)

theorem pyRound_intCast (k : ℤ) : pyRound (k : ℚ) = k := by
  rw [pyRound_eq]
  have h0 : ⌊(k : ℚ)⌋ = k := Int.floor_intCast k
  rw [h0]
  have : (k : ℚ) - (k : ℚ) = 0 := by ring
  rw [this]
  norm_num

theorem pyRound_le_of_le {q : ℚ} {n : ℤ} (h : q ≤ (n : ℚ)) : pyRound q ≤ n := by
  have := pyRound_mono h
  rwa [pyRound_intCast] at this

theorem le_pyRound_of_le {q : ℚ} {n : ℤ} (h : (n : ℚ) ≤ q) : n ≤ pyRound q := by
  have := pyRound_mono h
  rwa [pyRound_intCast] at this

/-- Python `round` at an exact half: ties go to the even integer. -/
theorem pyRound_half (k : ℤ) :
    pyRound ((k : ℚ) + 1/2) = if k % 2 = 0 then k else k + 1 := by
  rw [pyRound_eq]
  have h0 : ⌊(k : ℚ) + 1/2⌋ = k := by
    rw [show ((k : ℚ) + 1/2) = (1/2 : ℚ) + k by ring, Int.floor_add_int]
    norm_num
  rw [h0]
  have : (k : ℚ) + 1/2 - (k : ℚ) = 1/2 := by ring
  rw [this]
  norm_num

/-! ### The closed form of the running total -/

theorem remFrac_nil : remFrac [] = 1 := rfl

theorem remFrac_cons (r : ℤ) (L : List ℤ) :
    remFrac (r :: L) = (1 - (r : ℚ) / 100) * remFrac L := by
  simp [remFrac]

theorem remFrac_append (L₁ L₂ : List ℤ) :
    remFrac (L₁ ++ L₂) = remFrac L₁ * remFrac L₂ := by
  simp [remFrac]

theorem remFrac_perm {L₁ L₂ : List ℤ} (h : L₁.Perm L₂) :
    remFrac L₁ = remFrac L₂ :=
  List.Perm.prod_eq (h.map _)

theorem remFrac_nonneg {L : List ℤ} (h : ∀ v ∈ L, v ≤ 100) : 0 ≤ remFrac L := by
  induction L with
  | nil => rw [remFrac_nil]; norm_num
  | cons r L ih =>
    rw [remFrac_cons]
    have hr : (r : ℚ) ≤ 100 := by exact_mod_cast h r (List.mem_cons_self r L)
    have h1 : (0 : ℚ) ≤ 1 - (r : ℚ) / 100 := by linarith
    exact mul_nonneg h1 (ih fun v hv => h v (List.mem_cons_of_mem r hv))

theorem remFrac_le_one {L : List ℤ} (h : ∀ v ∈ L, 0 ≤ v ∧ v ≤ 100) :
    remFrac L ≤ 1 := by
  induction L with
  | nil => rw [remFrac_nil]
  | cons r L ih =>
    rw [remFrac_cons]
    obtain ⟨hr0, hr1⟩ := h r (List.mem_cons_self r L)
    have hr0q : (0 : ℚ) ≤ (r : ℚ) := by exact_mod_cast hr0
    have hr1q : (r : ℚ) ≤ 100 := by exact_mod_cast hr1
    have hrest : ∀ v ∈ L, v ≤ 100 := fun v hv => (h v (List.mem_cons_of_mem r hv)).2
    have h0 : 0 ≤ remFrac L := remFrac_nonneg hrest
    have h1 : remFrac L ≤ 1 := ih fun v hv => h v (List.mem_cons_of_mem r hv)
    nlinarith

/-- The loop computes `100 * (1 - (1 - start/100) * remFrac rest)`. -/
theorem foldl_combineStep (rest : List ℤ) :
    ∀ a : ℚ, rest.foldl (fun t (r : ℤ) => combineStep t (r : ℚ)) a
      = 100 * (1 - (1 - a / 100) * remFrac rest) := by
  induction rest with
  | nil => intro a; rw [List.foldl_nil, remFrac_nil]; ring
  | cons r rs ih =>
    intro a
    rw [List.foldl_cons, ih (combineStep a (r : ℚ)), remFrac_cons, combineStep]
    ring

/-- The loop starting from the head equals the closed form `totalQ` of the
whole list. -/
theorem combineFold_eq_totalQ (c : ℤ) (rest : List ℤ) :
    combineFold c rest = totalQ (c :: rest) := by
  rw [combineFold, foldl_combineStep, totalQ, remFrac_cons]

/-! ### Facts about the final rounding and clamp -/

theorem clampTo_le_100 (rd : ℤ) : clampTo rd ≤ 100 := by
  rw [clampTo]
  split_ifs <;> omega

theorem clampRound_le_100 (t : ℚ) : clampRound t ≤ 100 :=
  clampTo_le_100 _

theorem clampTo_mono {a b : ℤ} (h : a ≤ b) : clampTo a ≤ clampTo b := by
  rw [clampTo, clampTo]
  split_ifs <;> omega

theorem clampRound_mono {t₁ t₂ : ℚ} (h : t₁ ≤ t₂) :
    clampRound t₁ ≤ clampRound t₂ := by
  refine clampTo_mono ?_
  have h2 : pyRound (t₁ / 10) ≤ pyRound (t₂ / 10) := pyRound_mono (by linarith)
  omega

theorem clampRound_of_100_le {t : ℚ} (h : (100 : ℚ) ≤ t) : clampRound t = 100 := by
  have h10 : ((10 : ℤ) : ℚ) ≤ t / 10 := by push_cast; linarith
  have := le_pyRound_of_le h10
  rw [clampRound, clampTo]
  split_ifs with hc
  · rfl
  · omega

theorem clampRound_zero : clampRound 0 = 0 := by
  have h0 : (0 : ℚ) / 10 = ((0 : ℤ) : ℚ) := by norm_num
  rw [clampRound, h0, pyRound_intCast, clampTo]
  norm_num

/-- Rewriting `calculate_combined_rating` in closed form: clamp-round the
order-independent total of the filtered list. -/
theorem calc_eq_clampRound (l : List ℤ) :
    calculate_combined_rating l
      = clampRound (totalQ (l.filter (fun r => decide (0 < r)))) := by
  rcases h : (l.filter (fun r => decide (0 < r))).insertionSort (· ≥ ·) with _ | ⟨c, rest⟩
  · have hperm := List.perm_insertionSort (· ≥ ·) (l.filter (fun r => decide (0 < r)))
    rw [h] at hperm
    have hf : l.filter (fun r => decide (0 < r)) = [] := hperm.symm.eq_nil
    rw [calculate_combined_rating.eq_def, h, hf]
    rw [totalQ, remFrac_nil]
    have : (100 : ℚ) * (1 - 1) = 0 := by ring
    rw [this, clampRound_zero]
  · have hperm := List.perm_insertionSort (· ≥ ·) (l.filter (fun r => decide (0 < r)))
    rw [h] at hperm
    simp only [calculate_combined_rating.eq_def, h]
    rw [combineFold_eq_totalQ]
    rw [totalQ, totalQ, remFrac_perm hperm]
    rfl

/-! ### Membership and bound helpers -/

theorem mem_filter_pos {l : List ℤ} {v : ℤ}
    (h : v ∈ l.filter (fun r => decide (0 < r))) : v ∈ l ∧ 0 < v := by
  have h2 := List.mem_filter.mp h
  exact ⟨h2.1, of_decide_eq_true h2.2⟩

/-- Each loop step keeps the running total inside `[0, 100]` as long as the
incoming rating is in `(0, 100]`. -/
theorem foldl_combineStep_bounds {L : List ℤ} :
    ∀ {a : ℚ}, 0 ≤ a → a ≤ 100 → (∀ v ∈ L, 0 < v ∧ v ≤ 100) →
      0 ≤ L.foldl (fun t (r : ℤ) => combineStep t (r : ℚ)) a ∧
        L.foldl (fun t (r : ℤ) => combineStep t (r : ℚ)) a ≤ 100 := by
  induction L with
  | nil => intro a h0 h1 _; exact ⟨h0, h1⟩
  | cons r rs ih =>
    intro a h0 h1 hL
    obtain ⟨hr0, hr1⟩ := hL r (List.mem_cons_self r rs)
    have hr0q : (0 : ℚ) < (r : ℚ) := by exact_mod_cast hr0
    have hr1q : (r : ℚ) ≤ 100 := by exact_mod_cast hr1
    rw [List.foldl_cons]
    have hs0 : 0 ≤ combineStep a (r : ℚ) := by
      rw [combineStep]; nlinarith
    have hs1 : combineStep a (r : ℚ) ≤ 100 := by
      rw [combineStep]; nlinarith
    exact ih hs0 hs1 fun v hv => hL v (List.mem_cons_of_mem r hv)

/-- A list containing a 100 rating has remaining fraction 0. -/
theorem remFrac_eq_zero_of_mem {L : List ℤ} (h : (100 : ℤ) ∈ L) :
    remFrac L = 0 := by
  rw [remFrac]
  refine List.prod_eq_zero ?_
  refine List.mem_map.mpr ⟨100, h, ?_⟩
  norm_num

/-! ### C1 -/

unseal Rat.add Rat.mul Rat.inv Rat.sub in
/-- C1: the combine operation reproduces the reference values of the spec:
`combine([]) = 0`, `combine([r]) = r` for every tier `r ∈ {0,10,...,100}`,
`combine([50,30,10]) = 70` and `combine([70,50,30]) = 90`. -/
theorem combine_reference_values :
    calculate_combined_rating [] = 0 ∧
    calculate_combined_rating [0] = 0 ∧
    calculate_combined_rating [10] = 10 ∧
    calculate_combined_rating [20] = 20 ∧
    calculate_combined_rating [30] = 30 ∧
    calculate_combined_rating [40] = 40 ∧
    calculate_combined_rating [50] = 50 ∧
    calculate_combined_rating [60] = 60 ∧
    calculate_combined_rating [70] = 70 ∧
    calculate_combined_rating [80] = 80 ∧
    calculate_combined_rating [90] = 90 ∧
    calculate_combined_rating [100] = 100 ∧
    calculate_combined_rating [50, 30, 10] = 70 ∧
    calculate_combined_rating [70, 50, 30] = 90 := by
  decide

/-! ### C2 -/

unseal Rat.add Rat.mul Rat.inv Rat.sub in
/-- C2 counterexample: `combine([50, 30])` has exact running total 65
(exactly halfway between 60 and 70), yet the code returns 60, not the
higher multiple 70: Python's `round` breaks the tie 6.5 to the even
integer 6. -/
theorem combine_half_tie_goes_down :
    combineFold 50 [30] = 65 ∧
    calculate_combined_rating [50, 30] = 60 ∧
    calculate_combined_rating [50, 30] ≠ 70 := by
  refine ⟨by decide, by decide, by decide⟩

/-- C2 (amended): the final rounding uses round-half-to-even semantics on
`total / 10`: whenever the exact running total is `10*k + 5` (exactly
halfway between two multiples of 10), the pre-clamp rounded value is
`10*k` when `k` is even and `10*k + 10` when `k` is odd. -/
theorem combine_rounds_half_to_even (l : List ℤ) (k : ℤ)
    (h : totalQ (l.filter (fun r => decide (0 < r))) = 10 * k + 5) :
    calculate_combined_rating l
      = clampTo (if k % 2 = 0 then 10 * k else 10 * k + 10) := by
  rw [calc_eq_clampRound, h]
  have e1 : ((10 : ℚ) * (k : ℚ) + 5) / 10 = (k : ℚ) + 1/2 := by ring
  rw [clampRound, e1, pyRound_half]
  split_ifs with hk
  · congr 1
    ring
  · congr 1
    ring

unseal Rat.add Rat.mul Rat.inv Rat.sub in
/-- Witness for C2: `combine([50, 30])`, whose exact total is 65 = 10*6+5,
rounds to the even side, 60. -/
theorem combine_rounds_half_to_even_witness :
    totalQ (([50, 30] : List ℤ).filter (fun r => decide (0 < r))) = 10 * 6 + 5 ∧
    calculate_combined_rating [50, 30]
      = clampTo (if (6 : ℤ) % 2 = 0 then 10 * 6 else 10 * 6 + 10) :=
  ⟨by decide, combine_rounds_half_to_even [50, 30] 6 (by decide)⟩

/-! ### C3 -/

unseal Rat.add Rat.mul Rat.inv Rat.sub in
/-- C3 counterexample: the claim quantifies over every sequence of
integers, but for inputs above the valid range the running total can go
negative and the result is then neither clamped below nor a member of
{0,10,...,100}: `combine([300, 300]) = -300`. -/
theorem combine_out_of_range_not_canonical :
    calculate_combined_rating [300, 300] = -300 ∧
    calculate_combined_rating [300, 300] ∉
      ([0, 10, 20, 30, 40, 50, 60, 70, 80, 90, 100] : List ℤ) := by
  refine ⟨by decide, by decide⟩

/-- C3 (amended): the result is always a multiple of 10 and never exceeds
100; any input containing a 100 rating yields exactly 100; and whenever
every input value is at most 100 the result lies in {0,10,...,100}.  (The
unrestricted membership claim fails for inputs above 100, which can drive
the result negative.) -/
theorem combine_range :
    (∀ l : List ℤ, calculate_combined_rating l ≤ 100) ∧
    (∀ l : List ℤ, 10 ∣ calculate_combined_rating l) ∧
    (∀ l : List ℤ, (100 : ℤ) ∈ l → calculate_combined_rating l = 100) ∧
    (∀ l : List ℤ, (∀ v ∈ l, v ≤ 100) →
      calculate_combined_rating l ∈
        ([0, 10, 20, 30, 40, 50, 60, 70, 80, 90, 100] : List ℤ)) := by
  refine ⟨?_, ?_, ?_, ?_⟩
  · intro l
    rw [calc_eq_clampRound]
    exact clampRound_le_100 _
  · intro l
    rw [calc_eq_clampRound, clampRound, clampTo]
    split_ifs with h
    · omega
    · have := min_le_left (pyRound (totalQ (l.filter (fun r => decide (0 < r))) / 10) * 10) 100
      generalize pyRound (totalQ (l.filter (fun r => decide (0 < r))) / 10) = m at *
      omega
  · intro l hmem
    have hf : (100 : ℤ) ∈ l.filter (fun r => decide (0 < r)) :=
      List.mem_filter.mpr ⟨hmem, by decide⟩
    rw [calc_eq_clampRound, totalQ, remFrac_eq_zero_of_mem hf]
    have e : (100 : ℚ) * (1 - 0) = 100 := by ring
    rw [e]
    exact clampRound_of_100_le (le_refl _)
  · intro l hb
    have hentries : ∀ v ∈ l.filter (fun r => decide (0 < r)), 0 ≤ v ∧ v ≤ 100 := by
      intro v hv
      obtain ⟨hvl, hvp⟩ := mem_filter_pos hv
      exact ⟨le_of_lt hvp, hb v hvl⟩
    have h0 : 0 ≤ remFrac (l.filter (fun r => decide (0 < r))) :=
      remFrac_nonneg fun v hv => (hentries v hv).2
    have h1 : remFrac (l.filter (fun r => decide (0 < r))) ≤ 1 :=
      remFrac_le_one hentries
    rw [calc_eq_clampRound, clampRound]
    have ht0 : (0 : ℚ) ≤ totalQ (l.filter (fun r => decide (0 < r))) := by
      rw [totalQ]; linarith
    have ht1 : totalQ (l.filter (fun r => decide (0 < r))) ≤ 100 := by
      rw [totalQ]; linarith
    have hm0 : (0 : ℤ) ≤ pyRound (totalQ (l.filter (fun r => decide (0 < r))) / 10) := by
      refine le_pyRound_of_le ?_
      push_cast
      linarith
    have hm1 : pyRound (totalQ (l.filter (fun r => decide (0 < r))) / 10) ≤ 10 := by
      refine pyRound_le_of_le ?_
      push_cast
      linarith
    generalize pyRound (totalQ (l.filter (fun r => decide (0 < r))) / 10) = m at hm0 hm1
    interval_cases m <;> decide

/-- Witness for C3: the ceiling rule at `[100, 50, 30]` and canonical
membership at `[50, 30, 10]`. -/
theorem combine_range_witness :
    (100 : ℤ) ∈ ([100, 50, 30] : List ℤ) ∧
    calculate_combined_rating [100, 50, 30] = 100 ∧
    (∀ v ∈ ([50, 30, 10] : List ℤ), v ≤ 100) ∧
    calculate_combined_rating [50, 30, 10] ∈
      ([0, 10, 20, 30, 40, 50, 60, 70, 80, 90, 100] : List ℤ) :=
  ⟨by decide, combine_range.2.2.1 [100, 50, 30] (by decide),
   by decide, combine_range.2.2.2 [50, 30, 10] (by decide)⟩

/-! ### C4 -/

/-- C4: the combined rating is a function of the input multiset only: any
permutation of the input list yields the same result. -/
theorem combine_perm_invariant (l₁ l₂ : List ℤ) (h : l₁.Perm l₂) :
    calculate_combined_rating l₁ = calculate_combined_rating l₂ := by
  rw [calc_eq_clampRound, calc_eq_clampRound, totalQ, totalQ,
    remFrac_perm (h.filter _)]

/-- Witness for C4: `combine([30, 70, 10]) = combine([70, 30, 10])`. -/
theorem combine_perm_invariant_witness :
    ([30, 70, 10] : List ℤ).Perm [70, 30, 10] ∧
    calculate_combined_rating [30, 70, 10]
      = calculate_combined_rating [70, 30, 10] :=
  ⟨List.Perm.swap 70 30 [10],
   combine_perm_invariant _ _ (List.Perm.swap 70 30 [10])⟩

/-! ### C5 -/

unseal Rat.add Rat.mul Rat.inv Rat.sub in
/-- C5 counterexample: over arbitrary integer inputs, adding a positive
rating can strictly decrease the result: `combine([150]) = 100` but
`combine([150] ++ [120]) = 90` (a value above 100 makes the "remaining
capacity" negative, so the next step subtracts). -/
theorem combine_add_rating_can_decrease :
    calculate_combined_rating [150] = 100 ∧
    calculate_combined_rating ([150] ++ [120]) = 90 ∧
    ¬ calculate_combined_rating [150]
        ≤ calculate_combined_rating ([150] ++ [120]) := by
  refine ⟨by decide, by decide, by decide⟩

/-- C5 (amended): monotonicity holds as soon as the existing ratings are
all at most 100 (the valid range): appending any rating `r > 0` then never
decreases the combined result. -/
theorem combine_monotone (ratings : List ℤ) (r : ℤ)
    (hb : ∀ v ∈ ratings, v ≤ 100) (hr : 0 < r) :
    calculate_combined_rating ratings
      ≤ calculate_combined_rating (ratings ++ [r]) := by
  have hfr : ([r] : List ℤ).filter (fun v => decide (0 < v)) = [r] := by
    simp [List.filter_cons, hr]
  have hfa : (ratings ++ [r]).filter (fun v => decide (0 < v))
      = ratings.filter (fun v => decide (0 < v)) ++ [r] := by
    rw [List.filter_append, hfr]
  have h1r : remFrac [r] = 1 - (r : ℚ) / 100 := by
    rw [remFrac_cons, remFrac_nil, mul_one]
  have hρ0 : 0 ≤ remFrac (ratings.filter (fun v => decide (0 < v))) :=
    remFrac_nonneg fun v hv => hb v (mem_filter_pos hv).1
  have hrq : (0 : ℚ) < (r : ℚ) := by exact_mod_cast hr
  rw [calc_eq_clampRound, calc_eq_clampRound, hfa, totalQ, totalQ,
    remFrac_append, h1r]
  rcases le_or_lt (r : ℤ) 100 with hc | hc
  · have hcq : (r : ℚ) ≤ 100 := by exact_mod_cast hc
    refine clampRound_mono ?_
    have key : remFrac (ratings.filter (fun v => decide (0 < v))) * (1 - (r : ℚ) / 100)
        ≤ remFrac (ratings.filter (fun v => decide (0 < v))) := by
      nlinarith
    linarith
  · have hcq : (100 : ℚ) < (r : ℚ) := by exact_mod_cast hc
    have key : remFrac (ratings.filter (fun v => decide (0 < v))) * (1 - (r : ℚ) / 100)
        ≤ 0 := by
      nlinarith
    have h100 : (100 : ℚ) ≤ 100 * (1 - remFrac (ratings.filter (fun v => decide (0 < v)))
        * (1 - (r : ℚ) / 100)) := by
      nlinarith
    rw [clampRound_of_100_le h100]
    exact clampRound_le_100 _

/-- Witness for C5: appending 10 to `[50, 30]` does not decrease the
result. -/
theorem combine_monotone_witness :
    (∀ v ∈ ([50, 30] : List ℤ), v ≤ 100) ∧ (0 : ℤ) < 10 ∧
    calculate_combined_rating [50, 30]
      ≤ calculate_combined_rating ([50, 30] ++ [10]) :=
  ⟨by decide, by decide, combine_monotone [50, 30] 10 (by decide) (by decide)⟩

/-! ### C6 -/

unseal Rat.add Rat.mul Rat.inv Rat.sub in
/-- C6: dropping the non-positive entries of the input never changes the
result (the code starts by discarding them), e.g.
`combine([50, 0, -10, 30]) = combine([50, 30])`; the function is total, so
there is no error path to model. -/
theorem combine_filter_idempotent :
    (∀ l : List ℤ, calculate_combined_rating l
      = calculate_combined_rating (l.filter (fun v => decide (0 < v)))) ∧
    calculate_combined_rating [50, 0, -10, 30]
      = calculate_combined_rating [50, 30] := by
  constructor
  · intro l
    rw [calc_eq_clampRound, calc_eq_clampRound, List.filter_filter]
    simp only [Bool.and_self]
  · decide

/-! ### C7 -/

/-- C7: the monthly-compensation lookup maps exactly the eleven canonical
combined-rating keys to their fixed dollar amounts, returns 0 for every
other integer key (no exception, no interpolation), and
`monthlyCompensation(combine([])) = 0`. -/
theorem compensation_lookup :
    (∀ n : ℤ, n ∉ ([0, 10, 20, 30, 40, 50, 60, 70, 80, 90, 100] : List ℤ) →
      monthlyCompensation n = 0) ∧
    monthlyCompensation 0 = 0 ∧
    monthlyCompensation 10 = 171 ∧
    monthlyCompensation 20 = 338 ∧
    monthlyCompensation 30 = 524 ∧
    monthlyCompensation 40 = 755 ∧
    monthlyCompensation 50 = 1075 ∧
    monthlyCompensation 60 = 1361 ∧
    monthlyCompensation 70 = 1716 ∧
    monthlyCompensation 80 = 1995 ∧
    monthlyCompensation 90 = 2241 ∧
    monthlyCompensation 100 = 3737 ∧
    monthlyCompensation (calculate_combined_rating []) = 0 := by
  refine ⟨?_, by decide, by decide, by decide, by decide, by decide, by decide,
    by decide, by decide, by decide, by decide, by decide, by decide⟩
  intro n hn
  simp only [List.mem_cons, List.not_mem_nil, or_false, not_or] at hn
  obtain ⟨h0, h1, h2, h3, h4, h5, h6, h7, h8, h9, h10⟩ := hn
  have e0 : ((n == (0 : ℤ)) = false) := beq_eq_false_iff_ne.mpr h0
  have e1 : ((n == (10 : ℤ)) = false) := beq_eq_false_iff_ne.mpr h1
  have e2 : ((n == (20 : ℤ)) = false) := beq_eq_false_iff_ne.mpr h2
  have e3 : ((n == (30 : ℤ)) = false) := beq_eq_false_iff_ne.mpr h3
  have e4 : ((n == (40 : ℤ)) = false) := beq_eq_false_iff_ne.mpr h4
  have e5 : ((n == (50 : ℤ)) = false) := beq_eq_false_iff_ne.mpr h5
  have e6 : ((n == (60 : ℤ)) = false) := beq_eq_false_iff_ne.mpr h6
  have e7 : ((n == (70 : ℤ)) = false) := beq_eq_false_iff_ne.mpr h7
  have e8 : ((n == (80 : ℤ)) = false) := beq_eq_false_iff_ne.mpr h8
  have e9 : ((n == (90 : ℤ)) = false) := beq_eq_false_iff_ne.mpr h9
  have e10 : ((n == (100 : ℤ)) = false) := beq_eq_false_iff_ne.mpr h10
  simp [monthlyCompensation, VA_COMPENSATION_RATES, List.lookup,
    e0, e1, e2, e3, e4, e5, e6, e7, e8, e9, e10]

/-- Witness for C7: 73 is not a canonical key and maps to 0. -/
theorem compensation_lookup_witness :
    (73 : ℤ) ∉ ([0, 10, 20, 30, 40, 50, 60, 70, 80, 90, 100] : List ℤ) ∧
    monthlyCompensation 73 = 0 :=
  ⟨by decide, compensation_lookup.1 73 (by decide)⟩

/-! ### C8 -/

/-- C8: the derived values are exact integer compositions of the table
lookup: the monthly increase is `monthlyCompensation(potential) -
monthlyCompensation(current)`, the annual increase is twelve times that,
and for current 60 / potential 100 they are 2376 and 28512. -/
theorem compensation_deltas :
    (∀ cur pot : ℤ, monthly_increase_potential cur pot
      = monthlyCompensation pot - monthlyCompensation cur) ∧
    (∀ cur pot : ℤ, annual_increase_potential cur pot
      = monthly_increase_potential cur pot * 12) ∧
    monthly_increase_potential 60 100 = 2376 ∧
    annual_increase_potential 60 100 = 28512 :=
  ⟨fun _ _ => rfl, fun _ _ => rfl, by decide, by decide⟩

/-! ### C9 -/

/-- C9: when every input value is at most 100, the running total stays in
`[0, 100]` after every loop step (every prefix of the fold), and the final
`min(rounded, 100)` clamp is a no-op. -/
theorem combine_running_total_invariant (l : List ℤ) (c : ℤ) (rest : List ℤ)
    (hb : ∀ v ∈ l, v ≤ 100)
    (h : (l.filter (fun r => decide (0 < r))).insertionSort (· ≥ ·) = c :: rest) :
    (∀ i : ℕ, 0 ≤ combineFold c (rest.take i) ∧ combineFold c (rest.take i) ≤ 100) ∧
    min (pyRound (combineFold c rest / 10) * 10) 100
      = pyRound (combineFold c rest / 10) * 10 := by
  have hperm : (c :: rest).Perm (l.filter (fun r => decide (0 < r))) := by
    rw [← h]
    exact List.perm_insertionSort _ _
  have hmem : ∀ v ∈ (c :: rest), 0 < v ∧ v ≤ 100 := by
    intro v hv
    obtain ⟨hvl, hvp⟩ := mem_filter_pos (hperm.subset hv)
    exact ⟨hvp, hb v hvl⟩
  obtain ⟨hc0, hc1⟩ := hmem c (List.mem_cons_self c rest)
  have hc0q : (0 : ℚ) ≤ (c : ℚ) := by exact_mod_cast le_of_lt hc0
  have hc1q : (c : ℚ) ≤ 100 := by exact_mod_cast hc1
  have hrest : ∀ v ∈ rest, 0 < v ∧ v ≤ 100 :=
    fun v hv => hmem v (List.mem_cons_of_mem c hv)
  have hbounds : ∀ i : ℕ,
      0 ≤ combineFold c (rest.take i) ∧ combineFold c (rest.take i) ≤ 100 := by
    intro i
    exact foldl_combineStep_bounds hc0q hc1q
      fun v hv => hrest v (List.take_subset i rest hv)
  refine ⟨hbounds, ?_⟩
  have htot := hbounds rest.length
  rw [List.take_length] at htot
  have hm1 : pyRound (combineFold c rest / 10) ≤ 10 :=
    pyRound_le_of_le (by push_cast; linarith [htot.2])
  refine min_eq_left ?_
  omega

/-- Witness for C9: the invariant at the reference input `[50, 30, 10]`,
whose descending sort is itself. -/
theorem combine_running_total_invariant_witness :
    (∀ v ∈ ([50, 30, 10] : List ℤ), v ≤ 100) ∧
    (([50, 30, 10] : List ℤ).filter (fun r => decide (0 < r))).insertionSort (· ≥ ·)
      = [50, 30, 10] ∧
    ((∀ i : ℕ, 0 ≤ combineFold 50 (([30, 10] : List ℤ).take i) ∧
        combineFold 50 (([30, 10] : List ℤ).take i) ≤ 100) ∧
      min (pyRound (combineFold 50 [30, 10] / 10) * 10) 100
        = pyRound (combineFold 50 [30, 10] / 10) * 10) :=
  ⟨by decide, by decide,
   combine_running_total_invariant [50, 30, 10] 50 [30, 10] (by decide) (by decide)⟩

/-! ### C10 -/

unseal Rat.add Rat.mul Rat.inv Rat.sub in
/-- C10: strictly positive sub-tier ratings of 1 through 4 combine to 0:
their total rounds down to the nearest multiple of 10, which is 0. -/
theorem combine_subtier_rounds_to_zero :
    ∀ r : ℤ, 1 ≤ r → r ≤ 4 → calculate_combined_rating [r] = 0 := by
  intro r h1 h2
  interval_cases r <;> decide

/-- Witness for C10: `combine([3]) = 0`. -/
theorem combine_subtier_rounds_to_zero_witness :
    (1 : ℤ) ≤ 3 ∧ (3 : ℤ) ≤ 4 ∧ calculate_combined_rating [3] = 0 :=
  ⟨by decide, by decide, combine_subtier_rounds_to_zero 3 (by decide) (by decide)⟩

end VAClaims
